import Mathlib

/-!
Shallow embedding of the otterwiki page-title cache (otterwiki/page_titles.py)
and sidebar tree builder (otterwiki/sidebar.py).

Python strings are modelled as `List Char`, storage timestamps as `Int`
(only order matters to the code), and raised-or-caught storage errors as
`Option` results.  The storage adapter and the external helper functions
`get_filename` and `get_pagename` (from otterwiki.helper, outside the
sources under verification) are kept abstract as function-valued fields,
so every theorem quantifies over their behaviour.  Operations that touch
storage also return the number of document loads they performed, which is
how the specification talk of "no second storage read" is made formal.
-/

namespace OW

/-- Characters treated as whitespace by the Python str.strip used in the
title extractor, and by the regex non-whitespace class: the CPython
whitespace set, that is the ASCII whitespace characters including the
separator controls, plus the Unicode characters CPython classifies as
whitespace (next line, no-break space, ogham space mark, the en-quad to
hair-space range, line and paragraph separators, narrow no-break space,
medium mathematical space, ideographic space). -/
def isPySpace (c : Char) : Bool :=
  c = ' ' || c = '\t' || c = '\n' || c = '\r' || c = '\x0b' || c = '\x0c' ||
  c = '\x1c' || c = '\x1d' || c = '\x1e' || c = '\x1f' ||
  c = '\u0085' || c = '\u00a0' || c = '\u1680' ||
  ('\u2000' ≤ c && c ≤ '\u200a') ||
  c = '\u2028' || c = '\u2029' || c = '\u202f' || c = '\u205f' || c = '\u3000'

/-- Python lstrip of whitespace. -/
def lstripWs (s : List Char) : List Char := s.dropWhile isPySpace

/-- Python rstrip of whitespace. -/
def rstripWs (s : List Char) : List Char := (s.reverse.dropWhile isPySpace).reverse

/-- Python str.strip: whitespace removed from both ends. -/
def pyStrip (s : List Char) : List Char := lstripWs (rstripWs s)

/-- First element of content.split on the newline character: the longest
newline-free initial segment. -/
def firstLine (content : List Char) : List Char :=
  content.takeWhile (fun c => c ≠ '\n')

/-- Does a character list start with the hash character? -/
def startsWithHash : List Char → Bool
  | [] => false
  | c :: _ => c = '#'

/-- PageTitleManager._extract_title_from_content: if the stripped first
line starts with a hash, return the stripped text after the leading hash
run, mapping an empty remainder to none; otherwise none.  Empty content
gives none. -/
def extract_title_from_content (content : List Char) : Option (List Char) :=
  if content = [] then none
  else
    if startsWithHash (pyStrip (firstLine content)) then
      if pyStrip ((pyStrip (firstLine content)).dropWhile (fun c => c = '#')) = []
      then none
      else some (pyStrip ((pyStrip (firstLine content)).dropWhile (fun c => c = '#')))
    else none

/-- The storage adapter consumed by the manager: load and mtime, with the
exceptions the Python code catches modelled as none. -/
structure Storage where
  load : List Char → Option (List Char)
  mtime : List Char → Option Int

/-- The external helper functions imported from otterwiki.helper and
otterwiki.util, which are outside the sources under verification; they are
kept fully abstract. -/
structure Helpers where
  get_filename : List Char → List Char
  get_pagename : List Char → Bool → Option (List Char) → List Char
  join_path : List (List Char) → List Char

/-- The title cache: an association list from pagepath to the pair of an
optional title and the stored modification time. -/
abbrev Cache := List (List Char × (Option (List Char) × Int))

/-- Dictionary lookup in the cache. -/
def cacheLookup : Cache → List Char → Option (Option (List Char) × Int)
  | [], _ => none
  | (k, v) :: rest, q => if k = q then some v else cacheLookup rest q

/-- Dictionary assignment: store a binding, shadowing any previous one. -/
def cacheSet (c : Cache) (q : List Char) (v : Option (List Char) × Int) : Cache :=
  (q, v) :: c.filter (fun kv => decide (kv.1 ≠ q))

/-- Dictionary pop with a default: drop any binding for the key. -/
def cacheRemove (c : Cache) (q : List Char) : Cache :=
  c.filter (fun kv => decide (kv.1 ≠ q))

/-- PageTitleManager state: the enabled flag and the cache.  The storage
adapter is part of the state as in the Python constructor. -/
structure PTM where
  enabled : Bool
  storage : Storage
  cache : Cache

/-- Python rstrip of slashes, as used to normalize pagepaths. -/
def rstripSlash (p : List Char) : List Char :=
  (p.reverse.dropWhile (fun c => c = '/')).reverse

/-- Does the path end in the markdown extension? -/
def endsWithMd (q : List Char) : Bool :=
  match q.reverse with
  | 'd' :: 'm' :: '.' :: _ => true
  | _ => false

/-- Drop the last three characters, the markdown extension. -/
def dropMdExt (q : List Char) : List Char := (q.reverse.drop 3).reverse

/-- Pagepath normalization done by get_page_title, update_page_title and
remove_page_title: strip trailing slashes, then a trailing markdown
extension. -/
def normalize_pagepath (p : List Char) : List Char :=
  let q := rstripSlash p
  if endsWithMd q then dropMdExt q else q

/-- PageTitleManager._extract_title_from_file: load the document and
extract a title from its content; any load failure gives none. -/
def extract_title_from_file (m : PTM) (filename : List Char) : Option (List Char) :=
  match m.storage.load filename with
  | some content => extract_title_from_content content
  | none => none

/-- PageTitleManager._refresh_page_title on an already-normalized path:
re-extract the title (a load failure yields a none title), re-query the
modification time with failure mapped to 0, and overwrite the cache entry.
The surrounding except clause of the Python code never fires on a load
failure because _extract_title_from_file already catches it, so this
function always stores.  The last component counts document loads. -/
def refresh_page_title (h : Helpers) (m : PTM) (p : List Char) (fb : Bool) :
    Option (List Char) × PTM × Nat :=
  let _ := fb
  let filename := h.get_filename p
  let title := extract_title_from_file m filename
  let mt := match m.storage.mtime filename with
            | some t => t
            | none => 0
  (title, { m with cache := cacheSet m.cache p (title, mt) }, 1)

/-- PageTitleManager.get_page_title: returns none when disabled; otherwise
normalizes the path, answers from the cache when the current modification
time is available and not newer than the stored one, and refreshes
otherwise.  The fallback flag is accepted and passed on exactly as in the
source, where it is never used.  The last component counts document
loads. -/
def get_page_title (h : Helpers) (m : PTM) (pagepath : List Char) (fb : Bool) :
    Option (List Char) × PTM × Nat :=
  if m.enabled = true then
    let p := normalize_pagepath pagepath
    match cacheLookup m.cache p with
    | some (title, cached_mtime) =>
      match m.storage.mtime (h.get_filename p) with
      | some current =>
        if current ≤ cached_mtime then (title, m, 0)
        else refresh_page_title h m p fb
      | none => refresh_page_title h m p fb
    | none => refresh_page_title h m p fb
  else (none, m, 0)

/-- PageTitleManager.update_page_title: extract the title from the given
content, or from storage when no content is supplied, re-query the
modification time with failure mapped to 0, and overwrite the cache
entry.  No-op when disabled. -/
def update_page_title (h : Helpers) (m : PTM) (pagepath : List Char)
    (content : Option (List Char)) : PTM :=
  if m.enabled = true then
    let p := normalize_pagepath pagepath
    let title := match content with
                 | some c => extract_title_from_content c
                 | none => extract_title_from_file m (h.get_filename p)
    let mt := match m.storage.mtime (h.get_filename p) with
              | some t => t
              | none => 0
    { m with cache := cacheSet m.cache p (title, mt) }
  else m

/-- PageTitleManager.remove_page_title: drop the cache entry for the
normalized path.  No-op when disabled. -/
def remove_page_title (m : PTM) (pagepath : List Char) : PTM :=
  if m.enabled = true then
    { m with cache := cacheRemove m.cache (normalize_pagepath pagepath) }
  else m

/-- Python split on the slash character, keeping empty segments, so the
empty string splits into one empty segment. -/
def pySplitSlash : List Char → List (List Char)
  | [] => [[]]
  | c :: rest =>
    match pySplitSlash rest with
    | [] => [[c]]
    | g :: gs => if c = '/' then [] :: g :: gs else (c :: g) :: gs

/-- Python join with the slash character. -/
def joinSlash : List (List Char) → List Char
  | [] => []
  | [x] => x
  | x :: y :: rest => x ++ '/' :: joinSlash (y :: rest)

/-- Python truthiness of an optional string: none and the empty string are
falsy. -/
def truthyTitle : Option (List Char) → Option (List Char)
  | some t => if t = [] then none else some t
  | none => none

/-- PageTitleManager.get_display_title: when disabled, delegate to the
filename-based deriver; when enabled, fetch the cached title without
fallback and combine it with the filename-derived directory part for full
multi-segment paths.  The threaded manager state and load count come from
the embedded get_page_title call. -/
def get_display_title (h : Helpers) (m : PTM) (pagepath : List Char)
    (full : Bool) (header : Option (List Char)) : List Char × PTM × Nat :=
  if m.enabled = true then
    match get_page_title h m pagepath false with
    | (ct, m1, n1) =>
      if full = false then
        match truthyTitle ct with
        | some t => (t, m1, n1)
        | none => (h.get_pagename pagepath false header, m1, n1)
      else
        if 1 < (pySplitSlash (rstripSlash pagepath)).length then
          match truthyTitle ct with
          | some t =>
            (h.get_pagename (joinSlash ((pySplitSlash (rstripSlash pagepath)).dropLast))
               true none ++ '/' :: t, m1, n1)
          | none => (h.get_pagename pagepath true header, m1, n1)
        else
          match truthyTitle ct with
          | some t => (t, m1, n1)
          | none => (h.get_pagename pagepath true header, m1, n1)
  else (h.get_pagename pagepath full header, m, 0)

/-! Sidebar tree builder (SidebarPageIndex). -/

/-- Navigation tree: an ordered mapping from path segments to nodes, each
node carrying its children mapping, a path used for URLs, and a header
used for display.  Node fields are stored inline on each entry. -/
inductive NavTree where
  | nil : NavTree
  | cons (key : List Char) (children : NavTree) (path : List Char)
      (header : List Char) (rest : NavTree) : NavTree
deriving DecidableEq

/-- Is the mapping empty? -/
def NavTree.isNil : NavTree → Bool
  | .nil => true
  | .cons .. => false

/-- Does the mapping have an entry with the given key? -/
def NavTree.hasKey : NavTree → List Char → Bool
  | .nil, _ => false
  | .cons k _ _ _ rest, q => if k = q then true else rest.hasKey q

/-- Children of the first entry with the given key, or the empty mapping
when absent. -/
def NavTree.childrenOf : NavTree → List Char → NavTree
  | .nil, _ => .nil
  | .cons k c _ _ rest, q => if k = q then c else rest.childrenOf q

/-- Dictionary insertion for a fresh key: append the entry at the end, the
insertion order of an ordered dictionary. -/
def NavTree.appendEntry : NavTree → List Char → NavTree → List Char → List Char → NavTree
  | .nil, k, c, p, hd => .cons k c p hd .nil
  | .cons k0 c0 p0 h0 rest, k, c, p, hd => .cons k0 c0 p0 h0 (rest.appendEntry k c p hd)

/-- Replace the children of the first entry with the given key. -/
def NavTree.setChildren : NavTree → List Char → NavTree → NavTree
  | .nil, _, _ => .nil
  | .cons k c p hd rest, q, c2 =>
    if k = q then .cons k c2 p hd rest else .cons k c p hd (rest.setChildren q c2)

/-- The entries of the mapping, in order: key, children, path, header. -/
def NavTree.toEntryList : NavTree → List (List Char × NavTree × List Char × List Char)
  | .nil => []
  | .cons k c p hd rest => (k, c, p, hd) :: rest.toEntryList

/-- Is there a node at the given chain of segments? -/
def hasNodeAt : NavTree → List (List Char) → Bool
  | _, [] => true
  | .nil, _ :: _ => false
  | .cons k c _ _ rest, q :: qs =>
    if k = q then hasNodeAt c qs else hasNodeAt rest (q :: qs)

/-- Are all nodes of the tree at depth at most the bound? -/
def depthBounded : Nat → NavTree → Bool
  | _, .nil => true
  | 0, .cons .. => false
  | n + 1, .cons _ c _ _ rest => depthBounded n c && depthBounded (n + 1) rest

/-- The guard max_depth and prefix plus parts exceeding path_depth plus
max_depth, with Python truthiness: an unset or zero max_depth makes the
whole guard false. -/
def depth_skip (md : Option Int) (pd : Nat) (total : Nat) : Bool :=
  match md with
  | none => false
  | some v => decide (v ≠ 0) && decide ((total : Int) > (pd : Int) + v)

/-- The body of SidebarPageIndex.add_node that creates the node for the
leading segment when absent: the pagepath is the join of the whole chain,
the header hint is attached only on final segments, and the display label
comes from the title manager when one is present and enabled (threading
its mutated state), with the filename-derived fallback otherwise. -/
def add_node_insert (h : Helpers) (tm : Option PTM) (tree : NavTree)
    (pre : List (List Char)) (p0 : List Char) (rest : List (List Char))
    (header : Option (List Char)) : NavTree × Option PTM :=
  if tree.hasKey p0 then (tree, tm)
  else
    let pagepath := h.join_path (pre ++ p0 :: rest)
    let hdr1 := if rest = [] then header else none
    match tm with
    | some m =>
      if m.enabled = true then
        let r := get_display_title h m pagepath false none
        (tree.appendEntry p0 NavTree.nil (h.get_pagename pagepath true hdr1) r.1,
         some r.2.1)
      else
        (tree.appendEntry p0 NavTree.nil (h.get_pagename pagepath true hdr1)
           (h.get_pagename pagepath false hdr1), tm)
    | none =>
      (tree.appendEntry p0 NavTree.nil (h.get_pagename pagepath true hdr1)
         (h.get_pagename pagepath false hdr1), tm)

/-- SidebarPageIndex.add_node: skip the whole insertion when the depth
guard fires, otherwise create the node for the leading segment when
absent and recurse into its children with the remaining segments. -/
def add_node (h : Helpers) (pd : Nat) (md : Option Int) (tm : Option PTM)
    (tree : NavTree) (pre : List (List Char)) (parts : List (List Char))
    (header : Option (List Char)) : NavTree × Option PTM :=
  match parts with
  | [] => (tree, tm)
  | p0 :: rest =>
    if depth_skip md pd (pre.length + (p0 :: rest).length) then (tree, tm)
    else
      let created := add_node_insert h tm tree pre p0 rest header
      match rest with
      | [] => created
      | r0 :: rs =>
        let rec2 := add_node h pd md created.2 (created.1.childrenOf p0)
          (pre ++ [p0]) (r0 :: rs) header
        (created.1.setChildren p0 rec2.1, rec2.2)

/-- Modelled from the spec: the same insertion with the depth limit
disabled entirely, the behaviour the spec assigns to an unset or invalid
maximum depth. -/
def add_node_unlimited (h : Helpers) (pd : Nat) (tm : Option PTM)
    (tree : NavTree) (pre : List (List Char)) (parts : List (List Char))
    (header : Option (List Char)) : NavTree × Option PTM :=
  match parts with
  | [] => (tree, tm)
  | p0 :: rest =>
    let created := add_node_insert h tm tree pre p0 rest header
    match rest with
    | [] => created
    | r0 :: rs =>
      let rec2 := add_node_unlimited h pd created.2 (created.1.childrenOf p0)
        (pre ++ [p0]) (r0 :: rs) header
      (created.1.setChildren p0 rec2.1, rec2.2)

/-- Sequential insertion of a list of entries, each a chain of segments
with an optional header hint, starting from the empty tree, as the load
loop does. -/
def insert_entries (h : Helpers) (pd : Nat) (md : Option Int) (tm : Option PTM)
    (entries : List (List (List Char) × Option (List Char))) : NavTree × Option PTM :=
  entries.foldl (fun st e => add_node h pd md st.2 st.1 [] e.1 e.2) (NavTree.nil, tm)

/-! Ordering pass (SidebarPageIndex.order_tree). -/

/-- The configuration consumed by order_tree: the display mode string and
the case-insensitivity flag. -/
structure SCfg where
  mode : List Char
  ignore_case : Bool

/-- Lexicographic strict comparison of character lists, the order Python
uses on strings. -/
def strLt : List Char → List Char → Bool
  | _, [] => false
  | [], _ :: _ => true
  | a :: as, b :: bs => decide (a < b) || (decide (a = b) && strLt as bs)

/-- At-most comparison on sort keys: pairs of a Boolean (false before
true) and a string, ordered lexicographically as Python orders tuples. -/
def keyLe : Bool × List Char → Bool × List Char → Bool
  | (a, s), (b, t) => (!a && b) || (decide (a = b) && !(strLt t s))

/-- The sort key of an entry: directories-grouped mode keys on childless
status first, all modes key on the possibly lower-cased name. -/
def entry_key (cfg : SCfg) (k : List Char) (c : NavTree) : Bool × List Char :=
  let name := if cfg.ignore_case then k.map Char.toLower else k
  if cfg.mode = "DIRECTORIES_GROUPED".toList then (c.isNil, name) else (true, name)

/-- An entry being sorted: key, the original children and node fields,
and the recursively ordered children. -/
structure SortEntry where
  key : List Char
  children : NavTree
  path : List Char
  header : List Char
  ordered : NavTree

/-- Stable insertion of an entry before the first entry it compares at
most equal to; together with sortEntries this computes the unique stable
sort that the Python sorted builtin computes. -/
def insertEntry (cfg : SCfg) (x : SortEntry) : List SortEntry → List SortEntry
  | [] => [x]
  | y :: ys =>
    if keyLe (entry_key cfg x.key x.children) (entry_key cfg y.key y.children)
    then x :: y :: ys
    else y :: insertEntry cfg x ys

/-- Stable sort of the entry list by the configured key. -/
def sortEntries (cfg : SCfg) : List SortEntry → List SortEntry
  | [] => []
  | x :: xs => insertEntry cfg x (sortEntries cfg xs)

/-- Rebuild the ordered mapping from a list of entries. -/
def rebuildTree : List (List Char × NavTree × List Char × List Char) → NavTree
  | [] => .nil
  | (k, c, p, hd) :: rest => .cons k c p hd (rebuildTree rest)

/-- The non-recursive part of order_tree applied to annotated entries:
sort by the configured key, under directories-only mode drop entries
whose original children are empty, then replace each retained entry
children by the recursively ordered ones exactly when the original
children are non-empty. -/
def tree_post (cfg : SCfg) (l : List SortEntry) : NavTree :=
  rebuildTree
    ((if cfg.mode = "DIRECTORIES_ONLY".toList
      then (sortEntries cfg l).filter (fun e => !e.children.isNil)
      else sortEntries cfg l).map (fun e =>
      (e.key, if e.children.isNil then e.children else e.ordered, e.path, e.header)))

/-- Annotate every entry of the mapping with its recursively ordered
children. -/
def orderAux (cfg : SCfg) : NavTree → List SortEntry
  | .nil => []
  | .cons k c p hd rest =>
    { key := k, children := c, path := p, header := hd,
      ordered := tree_post cfg (orderAux cfg c) } :: orderAux cfg rest

/-- SidebarPageIndex.order_tree: sort each level by the mode-determined
key, filter childless entries under directories-only mode, and recurse
into the children of retained non-leaf entries. -/
def order_tree (cfg : SCfg) (t : NavTree) : NavTree :=
  tree_post cfg (orderAux cfg t)

/-! Sidebar custom menu and configuration parsing (SidebarMenu,
SidebarPageIndex construction). -/

/-- One decoded entry of the custom-menu JSON list: the optional title
and link values. -/
structure RawMenuEntry where
  title : Option (List Char)
  link : Option (List Char)

/-- A produced menu or config item. -/
structure MenuEntry where
  link : List Char
  title : List Char
deriving DecidableEq

/-- Python truthiness of a possibly missing string. -/
def truthyStr : Option (List Char) → Bool
  | none => false
  | some s => !s.isEmpty

/-- Does the prefix match, and what follows it? -/
def afterPre : List Char → List Char → Option (List Char)
  | [], s => some s
  | _ :: _, [] => none
  | c :: ps, d :: ss => if c = d then afterPre ps ss else none

/-- The URI_SIMPLE regular expression: the string starts with an http,
https or mailto scheme marker followed by at least one non-whitespace
character. -/
def uri_simple_match (s : List Char) : Bool :=
  ["http://".toList, "https://".toList, "mailto:".toList].any (fun p =>
    match afterPre p s with
    | some (c :: _) => !isPySpace c
    | _ => false)

/-- The entry loop of the SidebarMenu constructor: build the config list
and the menu list from the decoded entries, in order. -/
def menu_entries (url_for : List Char → List Char) (emptyFn : List Char → Bool) :
    List RawMenuEntry → List MenuEntry × List MenuEntry
  | [] => ([], [])
  | e :: rest =>
    let r := menu_entries url_for emptyFn rest
    if truthyStr e.title = false && truthyStr e.link = false then r
    else
      let link := e.link.getD []
      let title := e.title.getD []
      let items : List MenuEntry :=
        if emptyFn link then
          if emptyFn title then []
          else [{ link := url_for title, title := title }]
        else if uri_simple_match link then
          [{ link := link, title := if emptyFn title then link else title }]
        else
          [{ link := url_for link, title := if emptyFn title then link else title }]
      ({ link := link, title := title } :: r.1, items ++ r.2)

/-- The SidebarMenu constructor: an absent or empty configured value
yields empty lists without logging; a value the JSON decoder rejects is
logged as an error and replaced by the empty list; otherwise the entry
loop runs.  The decoder and the url_for and empty helpers are external
and kept abstract.  The Boolean records whether an error was logged. -/
def sidebar_menu_init (url_for : List Char → List Char)
    (emptyFn : List Char → Bool)
    (decodeJson : List Char → Option (List RawMenuEntry))
    (cfg : List Char) : List MenuEntry × List MenuEntry × Bool :=
  if cfg = [] then ([], [], false)
  else
    match decodeJson cfg with
    | none => ([], [], true)
    | some raw =>
      let r := menu_entries url_for emptyFn raw
      (r.1, r.2, false)

/-- Python int applied to a string: optional surrounding whitespace, an
optional sign, then one or more decimal digits; anything else raises
ValueError, modelled as none.  Underscore separators and non-ASCII digits
are not modelled. -/
def pyInt (s : List Char) : Option Int :=
  match pyStrip s with
  | '+' :: ds =>
    if ds ≠ [] && ds.all Char.isDigit
    then some ((ds.foldl (fun a c => a * 10 + (c.toNat - 48)) 0 : Nat) : Int)
    else none
  | '-' :: ds =>
    if ds ≠ [] && ds.all Char.isDigit
    then some (-((ds.foldl (fun a c => a * 10 + (c.toNat - 48)) 0 : Nat) : Int))
    else none
  | ds =>
    if ds ≠ [] && ds.all Char.isDigit
    then some ((ds.foldl (fun a c => a * 10 + (c.toNat - 48)) 0 : Nat) : Int)
    else none

/-- The max_depth computation of the SidebarPageIndex constructor: parse
the configured string as an integer, with a parse failure caught and
mapped to an absent limit. -/
def sidebar_max_depth (s : List Char) : Option Int := pyInt s

/-! Concrete instances used by the witnesses. -/

/-- A concrete Helpers instance: the filename appends the markdown
extension, the pagename deriver returns a fixed non-empty label, and
paths join with slashes. -/
def demoHelpers : Helpers where
  get_filename := fun p => p ++ '.' :: 'm' :: 'd' :: []
  get_pagename := fun _ _ _ => 'P' :: []
  join_path := joinSlash

/-- A storage with a single page whose content carries a heading. -/
def demoStorage : Storage where
  load := fun f => if f = "page.md".toList then some "# Hello\nbody".toList else none
  mtime := fun f => if f = "page.md".toList then some 5 else none

/-- A storage on which every operation fails. -/
def emptyStorage : Storage where
  load := fun _ => none
  mtime := fun _ => none

/-- An enabled manager over the demo storage whose cache holds a fresh
entry for the demo page. -/
def demoPTM : PTM where
  enabled := true
  storage := demoStorage
  cache := [("page".toList, (some "T".toList, 5))]

/-- An enabled manager over the failing storage with one stale entry. -/
def demoPTMEmpty : PTM where
  enabled := true
  storage := emptyStorage
  cache := [("page".toList, (some "Old".toList, 5))]

/-- An enabled manager over the failing storage with an empty cache. -/
def demoPTMBare : PTM where
  enabled := true
  storage := emptyStorage
  cache := []

/-- A two-segment page for the display-title witness. -/
def demoPTMDeep : PTM where
  enabled := true
  storage :=
    { load := fun f => if f = "a/b.md".toList then some "# Hello".toList else none
      mtime := fun f => if f = "a/b.md".toList then some 5 else none }
  cache := [("a/b".toList, (some "Hello".toList, 5))]

/-- The directories-only configuration. -/
def cfgDirOnly : SCfg where
  mode := "DIRECTORIES_ONLY".toList
  ignore_case := false

/-- A plain-mode configuration. -/
def cfgPlain : SCfg where
  mode := []
  ignore_case := false

/-- The tree with a document b under directory a and a childless
top-level document c. -/
def treeC8 : NavTree :=
  .cons "a".toList
    (.cons "b".toList .nil "a/b".toList "b".toList .nil)
    "a".toList "a".toList
    (.cons "c".toList .nil "c".toList "c".toList .nil)

/-! Cache lemmas. -/

theorem cacheLookup_set_self (c : Cache) (q : List Char) (v : Option (List Char) × Int) :
    cacheLookup (cacheSet c q v) q = some v := by
  simp [cacheSet, cacheLookup]

theorem cacheLookup_remove_self (c : Cache) (q : List Char) :
    cacheLookup (cacheRemove c q) q = none := by
  induction c with
  | nil => rfl
  | cons kv rest ih =>
    by_cases hk : kv.1 = q
    · simp [cacheRemove, List.filter, hk] at ih ⊢
      exact ih
    · simp [cacheRemove, List.filter, hk, cacheLookup] at ih ⊢
      exact ih

/-- C1: with a cache entry for the normalized path whose stored timestamp
is at least the successfully queried current modification time, the title
lookup returns the cached title with the state untouched and zero
document loads, and a second call in the unchanged state does the same,
so two consecutive lookups agree and perform no storage read. -/
theorem C1_cache_hit_idempotent (h : Helpers) (m : PTM) (p : List Char) (fb : Bool)
    (t : Option (List Char)) (cm cur : Int)
    (hen : m.enabled = true)
    (hc : cacheLookup m.cache (normalize_pagepath p) = some (t, cm))
    (hm : m.storage.mtime (h.get_filename (normalize_pagepath p)) = some cur)
    (hle : cur ≤ cm) :
    get_page_title h m p fb = (t, m, 0) ∧
    get_page_title h (get_page_title h m p fb).2.1 p fb = (t, m, 0) := by
  have h1 : get_page_title h m p fb = (t, m, 0) := by
    simp [get_page_title, hen, hc, hm, hle]
  refine ⟨h1, ?_⟩
  rw [h1]
  exact h1

/-- C1 witness at a concrete manager. -/
theorem C1_witness :
    get_page_title demoHelpers demoPTM "page".toList true
      = (some "T".toList, demoPTM, 0) :=
  (C1_cache_hit_idempotent demoHelpers demoPTM "page".toList true
    (some "T".toList) 5 5 rfl (by decide) (by decide) (by decide)).1

/-- C3 counterexample: on a storage where the page file is absent, an
update with content carrying a heading is followed by a lookup that
returns none rather than the title extracted from that content, because
the recorded timestamp 0 cannot validate against a failing mtime query. -/
theorem C3_counterexample :
    (get_page_title demoHelpers
        (update_page_title demoHelpers demoPTMBare "page".toList
          (some "# Hi".toList))
        "page".toList true).1 = none ∧
    extract_title_from_content "# Hi".toList = some "Hi".toList := by
  constructor
  · decide
  · decide

/-- C3 amended: after an update with content for a path whose storage
modification time query succeeds, the cache entry holds the title
extracted from that content together with the fresh timestamp, and a
subsequent lookup returns exactly that extracted title with no manual
timestamp bump. -/
theorem C3_update_then_get (h : Helpers) (m : PTM) (p : List Char)
    (c : List Char) (cur : Int) (fb : Bool)
    (hen : m.enabled = true)
    (hm : m.storage.mtime (h.get_filename (normalize_pagepath p)) = some cur) :
    cacheLookup (update_page_title h m p (some c)).cache (normalize_pagepath p)
      = some (extract_title_from_content c, cur) ∧
    (get_page_title h (update_page_title h m p (some c)) p fb).1
      = extract_title_from_content c := by
  have hupd : update_page_title h m p (some c)
      = { m with cache := cacheSet m.cache (normalize_pagepath p)
                    (extract_title_from_content c, cur) } := by
    simp [update_page_title, hen, hm]
  constructor
  · rw [hupd]
    exact cacheLookup_set_self _ _ _
  · rw [hupd]
    simp [get_page_title, hen, hm, cacheLookup_set_self]

/-- C3 witness at a concrete manager whose storage reports a timestamp. -/
theorem C3_witness :
    cacheLookup (update_page_title demoHelpers demoPTM "page".toList
        (some "# New".toList)).cache (normalize_pagepath "page".toList)
      = some (some "New".toList, 5) ∧
    (get_page_title demoHelpers
        (update_page_title demoHelpers demoPTM "page".toList
          (some "# New".toList)) "page".toList false).1
      = some "New".toList := by
  have := C3_update_then_get demoHelpers demoPTM "page".toList
    "# New".toList 5 false rfl (by decide)
  simpa using this

/-- C4: evaluating the refresh path at a manager holding a stale entry for
a page that can no longer be loaded: the lookup returns none but the cache
entry is overwritten with a none title and timestamp 0 instead of being
removed, because the extraction helper swallows the load failure before
the removal branch can see it. -/
theorem C4_failed_load_stores_entry :
    (get_page_title demoHelpers demoPTMEmpty "page".toList true).1 = none ∧
    cacheLookup ((get_page_title demoHelpers demoPTMEmpty "page".toList true).2.1.cache)
        "page".toList = some (none, 0) := by
  constructor
  · decide
  · decide

/-- C5 counterexample: after removing the cache entry for a page whose
document still exists in storage with a heading, the lookup with fallback
disabled returns that freshly extracted heading, not none. -/
theorem C5_counterexample :
    (get_page_title demoHelpers (remove_page_title demoPTM "page".toList)
        "page".toList false).1 = some "Hello".toList := by
  decide

/-- C5 amended: removal clears the cache entry for the normalized path,
and a subsequent lookup with any fallback flag goes through a fresh
refresh, returning the title re-extracted from current storage content
rather than any previously cached value. -/
theorem C5_remove_then_get (h : Helpers) (m : PTM) (p : List Char) (fb : Bool)
    (hen : m.enabled = true) :
    cacheLookup (remove_page_title m p).cache (normalize_pagepath p) = none ∧
    get_page_title h (remove_page_title m p) p fb
      = refresh_page_title h (remove_page_title m p) (normalize_pagepath p) fb ∧
    (get_page_title h (remove_page_title m p) p fb).1
      = extract_title_from_file m (h.get_filename (normalize_pagepath p)) := by
  have hrem : remove_page_title m p
      = { m with cache := cacheRemove m.cache (normalize_pagepath p) } := by
    simp [remove_page_title, hen]
  have hlook : cacheLookup (remove_page_title m p).cache (normalize_pagepath p) = none := by
    rw [hrem]
    exact cacheLookup_remove_self _ _
  refine ⟨hlook, ?_, ?_⟩
  · simp [get_page_title, hrem, hen, cacheLookup_remove_self]
  · simp [get_page_title, hrem, hen, cacheLookup_remove_self,
      refresh_page_title, extract_title_from_file]

/-! Lemmas about stripping, for the title extractor. -/

theorem dropWhile_eq_self_of_length (p : Char → Bool) (l : List Char)
    (h : (l.dropWhile p).length = l.length) : l.dropWhile p = l := by
  cases l with
  | nil => rfl
  | cons a as =>
    rw [List.dropWhile_cons] at h ⊢
    by_cases hp : p a
    · exfalso
      have hle := (List.dropWhile_sublist (l := as) p).length_le
      simp [hp] at h
      omega
    · simp [hp]

theorem head_not_space_of_lstrip (a : Char) (l : List Char)
    (h : List.dropWhile isPySpace (a :: l) = a :: l) : isPySpace a = false := by
  by_cases hp : isPySpace a
  · exfalso
    have hle := (List.dropWhile_sublist (l := l) isPySpace).length_le
    rw [List.dropWhile_cons] at h
    simp [hp] at h
    have hlen := congrArg List.length h
    simp at hlen
    omega
  · simpa using hp

theorem pyStrip_eq_self_parts (T : List Char) (h : pyStrip T = T) :
    lstripWs T = T ∧ rstripWs T = T := by
  have hlen_r : (rstripWs T).length ≤ T.length := by
    rw [rstripWs, List.length_reverse]
    calc (List.dropWhile isPySpace T.reverse).length
        ≤ T.reverse.length := (List.dropWhile_sublist _).length_le
      _ = T.length := List.length_reverse T
  have hTlen : T.length ≤ (rstripWs T).length := by
    conv_lhs => rw [← h]
    exact (List.dropWhile_sublist _).length_le
  have heq1 : (rstripWs T).length = T.length := le_antisymm hlen_r hTlen
  have heq2 : lstripWs (rstripWs T) = rstripWs T := by
    apply dropWhile_eq_self_of_length
    show (lstripWs (rstripWs T)).length = (rstripWs T).length
    rw [show lstripWs (rstripWs T) = T from h, heq1]
  have hr : rstripWs T = T := by rw [← heq2]; exact h
  refine ⟨?_, hr⟩
  calc lstripWs T = lstripWs (rstripWs T) := by rw [hr]
    _ = T := h

theorem rstrip_to_reverse (T : List Char) (h : rstripWs T = T) :
    List.dropWhile isPySpace T.reverse = T.reverse := by
  have h2 := congrArg List.reverse h
  simpa [rstripWs] using h2

theorem rstrip_append (xs T : List Char) (hne : T ≠ [])
    (h : List.dropWhile isPySpace T.reverse = T.reverse) :
    rstripWs (xs ++ T) = xs ++ T := by
  cases hrv : T.reverse with
  | nil =>
    exfalso
    apply hne
    have := congrArg List.reverse hrv
    simpa using this
  | cons b bs =>
    have hb : isPySpace b = false := by
      rw [hrv] at h
      exact head_not_space_of_lstrip b bs h
    have hT : T = bs.reverse ++ [b] := by
      have := congrArg List.reverse hrv
      simpa using this
    subst hT
    rw [rstripWs]
    rw [List.reverse_append, List.reverse_append]
    simp only [List.reverse_reverse, List.reverse_cons, List.reverse_nil,
      List.nil_append, List.cons_append, List.dropWhile_cons, hb]
    simp

theorem lstrip_cons_nonspace (a : Char) (l : List Char) (ha : isPySpace a = false) :
    lstripWs (a :: l) = a :: l := by
  simp [lstripWs, List.dropWhile_cons, ha]

theorem lstrip_cons_space (a : Char) (l : List Char) (ha : isPySpace a = true) :
    lstripWs (a :: l) = lstripWs l := by
  simp [lstripWs, List.dropWhile_cons, ha]

theorem takeWhile_no_newline (T rest : List Char) (hnl : ∀ c ∈ T, c ≠ '\n') :
    (T ++ rest).takeWhile (fun c => c ≠ '\n')
      = T ++ rest.takeWhile (fun c => c ≠ '\n') := by
  induction T with
  | nil => simp
  | cons a as ih =>
    have ha : a ≠ '\n' := hnl a (by simp)
    have hrec := ih (fun c hc => hnl c (by simp [hc]))
    rw [List.cons_append, List.takeWhile_cons, if_pos (decide_eq_true ha), hrec,
      List.cons_append]

theorem dropWhile_all_hash (l : List Char) (h : ∀ c ∈ l, c = '#') :
    l.dropWhile (fun c => c = '#') = [] := by
  induction l with
  | nil => rfl
  | cons a as ih =>
    have ha : a = '#' := h a (by simp)
    rw [List.dropWhile_cons]
    simp [ha, ih (fun c hc => h c (by simp [hc]))]

/-- C2 counterexample: on content whose first line is the hash, a space
and the two-character string with a trailing space, extraction yields the
one-character trimmed title, not the claimed exact string. -/
theorem C2_counterexample :
    extract_title_from_content ('#' :: ' ' :: ('x' :: ' ' :: [])) = some ('x' :: []) ∧
    ¬ extract_title_from_content ('#' :: ' ' :: ('x' :: ' ' :: []))
        = some ('x' :: ' ' :: []) := by
  constructor
  · decide
  · decide

/-- C2 amended: the extractor is pure in content and returns a present
title if and only if the stripped first line starts with a hash and the
stripped text after its leading hash run is non-empty, the returned
title being exactly that stripped text.  Spelled out: empty content
yields none; whenever the stripped first line starts with a hash and the
stripped text after the hash run is non-empty, that text is returned
(the coverage direction); content whose stripped first line does not
start with a hash yields none; a first line consisting only of hash
characters after stripping yields none; a present result always equals
the stripped text after the leading hash run and is non-empty; and for
every non-empty title string without a newline and without leading or
trailing whitespace, content whose first line is hash, space, then the
title extracts exactly that title. -/
theorem C2_extractor_contract :
    (extract_title_from_content [] = none) ∧
    (∀ content, startsWithHash (pyStrip (firstLine content)) = true →
      pyStrip ((pyStrip (firstLine content)).dropWhile (fun c => c = '#')) ≠ [] →
      extract_title_from_content content
        = some (pyStrip ((pyStrip (firstLine content)).dropWhile (fun c => c = '#')))) ∧
    (∀ content, startsWithHash (pyStrip (firstLine content)) = false →
      extract_title_from_content content = none) ∧
    (∀ content, content ≠ [] → (∀ c ∈ pyStrip (firstLine content), c = '#') →
      extract_title_from_content content = none) ∧
    (∀ content t, extract_title_from_content content = some t →
      startsWithHash (pyStrip (firstLine content)) = true ∧
      t = pyStrip ((pyStrip (firstLine content)).dropWhile (fun c => c = '#')) ∧
      t ≠ []) ∧
    (∀ T rest, T ≠ [] → (∀ c ∈ T, c ≠ '\n') → pyStrip T = T →
      (rest = [] ∨ ∃ r, rest = '\n' :: r) →
      extract_title_from_content ('#' :: ' ' :: (T ++ rest)) = some T) := by
  refine ⟨rfl, ?_, ?_, ?_, ?_, ?_⟩
  · intro content hsw hne
    by_cases hc : content = []
    · subst hc
      exact absurd hsw (by decide)
    · unfold extract_title_from_content
      simp [hc, hsw, hne]
  · intro content hsw
    unfold extract_title_from_content
    by_cases hc : content = []
    · simp [hc]
    · simp [hc, hsw]
  · intro content hc hall
    unfold extract_title_from_content
    have hx : pyStrip ((pyStrip (firstLine content)).dropWhile (fun c => c = '#')) = [] := by
      rw [dropWhile_all_hash (pyStrip (firstLine content)) hall]
      rfl
    simp [hc, hx]
  · intro content t hsome
    unfold extract_title_from_content at hsome
    by_cases hc : content = []
    · simp [hc] at hsome
    · rw [if_neg hc] at hsome
      by_cases hsw : startsWithHash (pyStrip (firstLine content)) = true
      · rw [if_pos hsw] at hsome
        by_cases hz : pyStrip ((pyStrip (firstLine content)).dropWhile (fun c => c = '#')) = []
        · simp [hz] at hsome
        · rw [if_neg hz] at hsome
          injection hsome with hval
          refine ⟨hsw, hval.symm, ?_⟩
          intro h0
          exact hz (hval.trans h0)
      · simp [Bool.not_eq_true] at hsw
        simp [hsw] at hsome
  · intro T rest hne hnl hstrip hrest
    obtain ⟨hl, hr⟩ := pyStrip_eq_self_parts T hstrip
    have hrev := rstrip_to_reverse T hr
    have hfl : firstLine ('#' :: ' ' :: (T ++ rest)) = '#' :: ' ' :: T := by
      unfold firstLine
      rw [List.takeWhile_cons, if_pos (by decide), List.takeWhile_cons,
        if_pos (by decide), takeWhile_no_newline T rest hnl]
      rcases hrest with h | ⟨r, h⟩
      · simp [h]
      · subst h
        rw [List.takeWhile_cons, if_neg (by decide), List.append_nil]
    have hstrip2 : pyStrip ('#' :: ' ' :: T) = '#' :: ' ' :: T := by
      have h1 : rstripWs ('#' :: ' ' :: T) = '#' :: ' ' :: T := by
        have := rstrip_append ['#', ' '] T hne hrev
        simpa using this
      rw [pyStrip, h1]
      exact lstrip_cons_nonspace _ _ (by decide)
    have hdrop : ('#' :: ' ' :: T).dropWhile (fun c => c = '#') = ' ' :: T := by
      rw [List.dropWhile_cons]
      simp only [decide_eq_true_eq]
      rw [List.dropWhile_cons]
      simp
    have hstrip3 : pyStrip (' ' :: T) = T := by
      have h1 : rstripWs (' ' :: T) = ' ' :: T := by
        have := rstrip_append [' '] T hne hrev
        simpa using this
      rw [pyStrip, h1, lstrip_cons_space _ _ (by decide)]
      exact hl
    unfold extract_title_from_content
    rw [if_neg (by simp)]
    rw [hfl, hstrip2, hdrop, hstrip3]
    simp [startsWithHash, hne]

/-- C2 witness: the coverage direction at a heading with a bare hash run
and no space, and the synthesized-heading property at a concrete
title. -/
theorem C2_witness :
    extract_title_from_content "##Title".toList = some "Title".toList ∧
    extract_title_from_content ('#' :: ' ' :: ('H' :: 'i' :: [] ++ []))
      = some ('H' :: 'i' :: []) := by
  constructor
  · exact (C2_extractor_contract.2.1 "##Title".toList (by decide) (by decide)).trans
      (by decide)
  · exact C2_extractor_contract.2.2.2.2.2 ('H' :: 'i' :: []) [] (by decide) (by decide)
      (by decide) (Or.inl rfl)

/-- C5 witness at a concrete manager. -/
theorem C5_witness :
    cacheLookup (remove_page_title demoPTM "page".toList).cache
        (normalize_pagepath "page".toList) = none ∧
    (get_page_title demoHelpers (remove_page_title demoPTM "page".toList)
        "page".toList false).1
      = extract_title_from_file demoPTM
          (demoHelpers.get_filename (normalize_pagepath "page".toList)) := by
  have := C5_remove_then_get demoHelpers demoPTM "page".toList false rfl
  exact ⟨this.1, this.2.2⟩

/-! Display titles. -/

theorem truthyTitle_ne_nil (o : Option (List Char)) (t : List Char)
    (h : truthyTitle o = some t) : t ≠ [] := by
  cases o with
  | none => simp [truthyTitle] at h
  | some s =>
    by_cases hs : s = []
    · simp [truthyTitle, hs] at h
    · simp [truthyTitle, hs] at h
      rw [← h]
      exact hs

/-- C6: whenever the external filename-based deriver returns non-empty
labels, the display title is never empty; when the manager is enabled and
the cached-title lookup yields a present non-empty title, a full request
on a multi-segment path returns the deriver-rendered directory part
joined to the cached leaf title with a slash, and a single-segment path
returns the cached title alone regardless of the full flag. -/
theorem C6_display_title (h : Helpers)
    (hgp : ∀ q f hd, h.get_pagename q f hd ≠ []) :
    (∀ m p full hd, (get_display_title h m p full hd).1 ≠ []) ∧
    (∀ m p hd t m1 k, m.enabled = true →
      get_page_title h m p false = (some t, m1, k) → t ≠ [] →
      1 < (pySplitSlash (rstripSlash p)).length →
      (get_display_title h m p true hd).1
        = h.get_pagename (joinSlash ((pySplitSlash (rstripSlash p)).dropLast))
            true none ++ '/' :: t) ∧
    (∀ m p full hd t m1 k, m.enabled = true →
      get_page_title h m p false = (some t, m1, k) → t ≠ [] →
      (pySplitSlash (rstripSlash p)).length = 1 →
      (get_display_title h m p full hd).1 = t) := by
  refine ⟨?_, ?_, ?_⟩
  · intro m p full hd
    unfold get_display_title
    by_cases hen : m.enabled = true
    · rw [if_pos hen]
      rcases hX : get_page_title h m p false with ⟨ct, m1, n1⟩
      by_cases hf : full = false
      · rcases htt : truthyTitle ct with _ | t
        · simp [hf, htt, hgp]
        · simp [hf, htt, truthyTitle_ne_nil ct t htt]
      · by_cases hlen : 1 < (pySplitSlash (rstripSlash p)).length
        · rcases htt : truthyTitle ct with _ | t
          · simp [hf, hlen, htt, hgp]
          · simp [hf, hlen, htt]
        · rcases htt : truthyTitle ct with _ | t
          · simp [hf, hlen, htt, hgp]
          · simp [hf, hlen, htt, truthyTitle_ne_nil ct t htt]
    · rw [if_neg hen]
      exact hgp _ _ _
  · intro m p hd t m1 k hen hct ht hlen
    unfold get_display_title
    rw [if_pos hen, hct]
    have htt : truthyTitle (some t) = some t := by simp [truthyTitle, ht]
    simp [hlen, htt]
  · intro m p full hd t m1 k hen hct ht hlen
    unfold get_display_title
    rw [if_pos hen, hct]
    have htt : truthyTitle (some t) = some t := by simp [truthyTitle, ht]
    by_cases hf : full = false
    · simp [hf, htt]
    · have hnot : ¬ 1 < (pySplitSlash (rstripSlash p)).length := by
        rw [hlen]
        omega
      simp [hf, hnot, htt]

/-- C6 witness: the full display title of a concrete two-segment page
with a cached leaf title. -/
theorem C6_witness :
    (get_display_title demoHelpers demoPTMDeep "a/b".toList true none).1
      = demoHelpers.get_pagename
          (joinSlash ((pySplitSlash (rstripSlash "a/b".toList)).dropLast))
          true none ++ '/' :: "Hello".toList :=
  (C6_display_title demoHelpers (fun _ _ _ => by simp [demoHelpers])).2.1
    demoPTMDeep "a/b".toList none "Hello".toList demoPTMDeep 0 rfl
    rfl (by decide) (by decide)

/-! Depth limiting in the tree builder. -/

theorem depthBounded_appendEntry (n : Nat) (t : NavTree) (k u d : List Char)
    (h : depthBounded (n + 1) t = true) :
    depthBounded (n + 1) (t.appendEntry k NavTree.nil u d) = true := by
  induction t with
  | nil => simp [NavTree.appendEntry, depthBounded]
  | cons k0 c0 p0 h0 rest ihc ihr =>
    simp [NavTree.appendEntry, depthBounded] at h ⊢
    exact ⟨h.1, ihr h.2⟩

theorem depthBounded_childrenOf (n : Nat) (t : NavTree) (q : List Char)
    (h : depthBounded (n + 1) t = true) :
    depthBounded n (t.childrenOf q) = true := by
  induction t with
  | nil => simp [NavTree.childrenOf, depthBounded]
  | cons k0 c0 p0 h0 rest ihc ihr =>
    simp [depthBounded] at h
    by_cases hk : k0 = q
    · simp [NavTree.childrenOf, hk, h.1]
    · simp [NavTree.childrenOf, hk]
      exact ihr h.2

theorem depthBounded_setChildren (n : Nat) (t c2 : NavTree) (q : List Char)
    (ht : depthBounded (n + 1) t = true) (hc : depthBounded n c2 = true) :
    depthBounded (n + 1) (t.setChildren q c2) = true := by
  induction t with
  | nil => simp [NavTree.setChildren, depthBounded]
  | cons k0 c0 p0 h0 rest ihc ihr =>
    simp [depthBounded] at ht
    by_cases hk : k0 = q
    · simp [NavTree.setChildren, hk, depthBounded, hc, ht.2]
    · simp [NavTree.setChildren, hk, depthBounded, ht.1]
      exact ihr ht.2

theorem add_node_insert_depthBounded (h : Helpers) (tm : Option PTM) (tree : NavTree)
    (pre : List (List Char)) (p0 : List Char) (rest : List (List Char))
    (hd : Option (List Char)) (n : Nat)
    (ht : depthBounded (n + 1) tree = true) :
    depthBounded (n + 1) (add_node_insert h tm tree pre p0 rest hd).1 = true := by
  unfold add_node_insert
  by_cases hk : tree.hasKey p0
  · simp [hk, ht]
  · cases tm with
    | none => simp [hk, depthBounded_appendEntry _ _ _ _ _ ht]
    | some m =>
      by_cases hen : m.enabled = true
      · simp [hk, hen, depthBounded_appendEntry _ _ _ _ _ ht]
      · simp [hk, hen, depthBounded_appendEntry _ _ _ _ _ ht]

theorem add_node_depth_bound (h : Helpers) (pd : Nat) (v : Int) (hv : 0 < v) :
    ∀ (parts : List (List Char)) (tm : Option PTM) (tree : NavTree)
      (pre : List (List Char)) (k : Nat) (hd : Option (List Char)),
      depthBounded k tree = true →
      (pre.length + parts.length ≤ pd + v.toNat → parts.length ≤ k) →
      depthBounded k (add_node h pd (some v) tm tree pre parts hd).1 = true := by
  intro parts
  induction parts with
  | nil =>
    intro tm tree pre k hd ht _
    simpa [add_node] using ht
  | cons p0 rest ih =>
    intro tm tree pre k hd ht hbound
    rw [add_node.eq_def]
    by_cases hskip : depth_skip (some v) pd (pre.length + (p0 :: rest).length) = true
    · simp only [hskip, if_true]
      exact ht
    · have hsE : depth_skip (some v) pd (pre.length + (p0 :: rest).length) = false := by
        simpa using hskip
      have htot : pre.length + (p0 :: rest).length ≤ pd + v.toNat := by
        unfold depth_skip at hsE
        have hv0 : v ≠ 0 := by omega
        simp [hv0] at hsE
        simp only [List.length_cons] at hsE ⊢
        omega
      have hlen : (p0 :: rest).length ≤ k := hbound htot
      simp only [List.length_cons] at hlen htot
      obtain ⟨k2, rfl⟩ : ∃ k2, k = k2 + 1 := ⟨k - 1, by omega⟩
      have hcreated : depthBounded (k2 + 1) (add_node_insert h tm tree pre p0 rest hd).1 = true :=
        add_node_insert_depthBounded h tm tree pre p0 rest hd k2 ht
      simp only [hsE, Bool.false_eq_true, if_false]
      cases rest with
      | nil =>
        dsimp only
        exact hcreated
      | cons r0 rs =>
        dsimp only
        have hch : depthBounded k2
            ((add_node_insert h tm tree pre p0 (r0 :: rs) hd).1.childrenOf p0) = true :=
          depthBounded_childrenOf k2 _ p0 hcreated
        have hrec := ih (add_node_insert h tm tree pre p0 (r0 :: rs) hd).2
          ((add_node_insert h tm tree pre p0 (r0 :: rs) hd).1.childrenOf p0)
          (pre ++ [p0]) k2 hd hch
          (by
            intro _
            simp only [List.length_cons] at hlen ⊢
            omega)
        exact depthBounded_setChildren k2 _ _ p0 hcreated hrec

theorem insert_entries_depthBounded (h : Helpers) (pd : Nat) (v : Int) (hv : 0 < v) :
    ∀ (entries : List (List (List Char) × Option (List Char))) (st : NavTree × Option PTM),
      depthBounded (pd + v.toNat) st.1 = true →
      depthBounded (pd + v.toNat)
        (entries.foldl (fun s e => add_node h pd (some v) s.2 s.1 [] e.1 e.2) st).1 = true := by
  intro entries
  induction entries with
  | nil =>
    intro st hst
    simpa using hst
  | cons e es ih =>
    intro st hst
    rw [List.foldl_cons]
    apply ih
    exact add_node_depth_bound h pd v hv e.1 st.2 st.1 [] (pd + v.toNat) e.2 hst
      (fun hb => by simpa using hb)

theorem add_node_eq_unlimited (h : Helpers) (pd : Nat) (md : Option Int)
    (hmd : md = none ∨ md = some 0) :
    ∀ parts tm tree pre hd, add_node h pd md tm tree pre parts hd
      = add_node_unlimited h pd tm tree pre parts hd := by
  intro parts
  induction parts with
  | nil => intro tm tree pre hd; rfl
  | cons p0 rest ih =>
    intro tm tree pre hd
    have hskip : depth_skip md pd (pre.length + (p0 :: rest).length) = false := by
      rcases hmd with rfl | rfl <;> simp [depth_skip]
    rw [add_node.eq_def, add_node_unlimited.eq_def]
    simp only [hskip, Bool.false_eq_true, if_false]
    cases rest with
    | nil => rfl
    | cons r0 rs => dsimp only; rw [ih]

/-- C7 counterexample: with the depth bound configured as the
non-negative integer 0 and a root of depth 0, the claim demands that the
single-segment insertion be skipped, leaving every node within depth 0;
the built tree instead contains a node of depth 1, because a zero bound
is falsy and disables the guard. -/
theorem C7_counterexample :
    depthBounded 0
      ((add_node demoHelpers 0 (some 0) none NavTree.nil [] ["a".toList] none).1)
      = false := by
  decide

/-- C7 amended: with a positive configured bound, building a tree from
any sequence of insertions keeps every node within the query root depth
plus the bound; with the bound unset or configured as zero, the
insertion behaves exactly as the limit-free insertion, so the limit is
disabled entirely. -/
theorem C7_depth_limit (h : Helpers) (pd : Nat) :
    (∀ v : Int, 0 < v → ∀ entries tm,
      depthBounded (pd + v.toNat) (insert_entries h pd (some v) tm entries).1 = true) ∧
    (∀ md : Option Int, md = none ∨ md = some 0 →
      ∀ tm tree pre parts hd,
        add_node h pd md tm tree pre parts hd
          = add_node_unlimited h pd tm tree pre parts hd) := by
  constructor
  · intro v hv entries tm
    exact insert_entries_depthBounded h pd v hv entries (NavTree.nil, tm)
      (by simp [depthBounded])
  · intro md hmd tm tree pre parts hd
    exact add_node_eq_unlimited h pd md hmd parts tm tree pre hd

/-- C7 witness: a two-segment insertion under bound 1 stays within
depth 1 (the second segment is skipped). -/
theorem C7_witness :
    depthBounded (0 + (1 : Int).toNat)
      (insert_entries demoHelpers 0 (some 1) none
        [(["a".toList, "b".toList], none)]).1 = true :=
  (C7_depth_limit demoHelpers 0).1 1 (by decide)
    [(["a".toList, "b".toList], none)] none

/-- C9: a custom-menu string the JSON decoder rejects is replaced by
empty config and menu lists with the error logged; a maximum-depth
string the integer parser rejects yields an absent bound; and with an
absent bound the insertion coincides with the limit-free insertion, so
neither malformed value escapes the component. -/
theorem C9_malformed_config (url_for : List Char → List Char)
    (emptyFn : List Char → Bool)
    (decodeJson : List Char → Option (List RawMenuEntry)) :
    (∀ cfg, cfg ≠ [] → decodeJson cfg = none →
      sidebar_menu_init url_for emptyFn decodeJson cfg = ([], [], true)) ∧
    (∀ s, pyInt s = none → sidebar_max_depth s = none) ∧
    (∀ s (h : Helpers) pd tm tree pre parts hd, pyInt s = none →
      add_node h pd (sidebar_max_depth s) tm tree pre parts hd
        = add_node_unlimited h pd tm tree pre parts hd) := by
  refine ⟨?_, ?_, ?_⟩
  · intro cfg hne hdec
    simp [sidebar_menu_init, hne, hdec]
  · intro s hs
    simp [sidebar_max_depth, hs]
  · intro s h pd tm tree pre parts hd hs
    have hmd : sidebar_max_depth s = none := by simp [sidebar_max_depth, hs]
    rw [hmd]
    exact add_node_eq_unlimited h pd none (Or.inl rfl) parts tm tree pre hd

/-- C9 witness: a failing decoder on a one-character configured string. -/
theorem C9_witness :
    sidebar_menu_init id (fun l => decide (l = [])) (fun _ => none) ('x' :: [])
      = ([], [], true) :=
  (C9_malformed_config id (fun l => decide (l = [])) (fun _ => none)).1
    ('x' :: []) (by decide) rfl

/-! Ordering pass results. -/

/-- C8 counterexample: under directories-only mode, the document node b
under directory a is pruned by the recursive ordering of the children of
a, contradicting the claim that both are retained. -/
theorem C8_counterexample :
    hasNodeAt (order_tree cfgDirOnly treeC8) ["a".toList, "b".toList] = false := by
  decide

/-- C8 amended: under directories-only mode, directory a survives the
filter because it had a child when the filter ran, but its childless
document child b is pruned by the recursive pass over the children of a,
and the genuinely childless top-level document c is excluded. -/
theorem C8_directories_only :
    order_tree cfgDirOnly treeC8
      = NavTree.cons "a".toList NavTree.nil "a".toList "a".toList NavTree.nil ∧
    hasNodeAt (order_tree cfgDirOnly treeC8) ["a".toList] = true ∧
    hasNodeAt (order_tree cfgDirOnly treeC8) ["c".toList] = false := by
  refine ⟨by decide, by decide, by decide⟩

theorem order_tree_nil (cfg : SCfg) : order_tree cfg NavTree.nil = NavTree.nil := by
  unfold order_tree tree_post orderAux sortEntries
  simp [rebuildTree]

theorem orderAux_eq (cfg : SCfg) (t : NavTree) :
    orderAux cfg t = t.toEntryList.map (fun e =>
      { key := e.1, children := e.2.1, path := e.2.2.1, header := e.2.2.2,
        ordered := order_tree cfg e.2.1 : SortEntry }) := by
  induction t with
  | nil => rfl
  | cons k c p hd rest ihc ihr =>
    simp [orderAux, NavTree.toEntryList, ihr, order_tree]

theorem toEntryList_rebuild (l : List (List Char × NavTree × List Char × List Char)) :
    (rebuildTree l).toEntryList = l := by
  induction l with
  | nil => rfl
  | cons e es ih =>
    obtain ⟨k, c, p, hd⟩ := e
    simp [rebuildTree, NavTree.toEntryList, ih]

theorem insertEntry_perm (cfg : SCfg) (x : SortEntry) (l : List SortEntry) :
    (insertEntry cfg x l).Perm (x :: l) := by
  induction l with
  | nil => simp [insertEntry]
  | cons y ys ih =>
    rw [insertEntry]
    by_cases hc : keyLe (entry_key cfg x.key x.children) (entry_key cfg y.key y.children) = true
    · simp [hc]
    · simp only [hc, Bool.false_eq_true, if_false]
      exact ((ih.cons y).trans (List.Perm.swap x y ys))

theorem sortEntries_perm (cfg : SCfg) (l : List SortEntry) :
    (sortEntries cfg l).Perm l := by
  induction l with
  | nil => simp [sortEntries]
  | cons x xs ih =>
    rw [sortEntries]
    exact (insertEntry_perm cfg x (sortEntries cfg xs)).trans (ih.cons x)

/-- C10: in every mode other than directories-only, ordering a tree
produces a permutation of its entries in which each node keeps its key,
path and header and carries its recursively ordered children, so no node
is added, removed or relabeled at any level. -/
theorem C10_order_tree_perm (cfg : SCfg) (t : NavTree)
    (hmode : cfg.mode ≠ "DIRECTORIES_ONLY".toList) :
    (order_tree cfg t).toEntryList.Perm
      (t.toEntryList.map (fun e => (e.1, order_tree cfg e.2.1, e.2.2.1, e.2.2.2))) := by
  rw [order_tree]
  unfold tree_post
  rw [if_neg hmode, toEntryList_rebuild]
  refine ((sortEntries_perm cfg (orderAux cfg t)).map _).trans ?_
  rw [orderAux_eq, List.map_map]
  have hfun : ((fun e : SortEntry =>
        (e.key, if e.children.isNil then e.children else e.ordered, e.path, e.header)) ∘
      (fun e : List Char × NavTree × List Char × List Char =>
        { key := e.1, children := e.2.1, path := e.2.2.1, header := e.2.2.2,
          ordered := order_tree cfg e.2.1 : SortEntry }))
      = (fun e : List Char × NavTree × List Char × List Char =>
          (e.1, order_tree cfg e.2.1, e.2.2.1, e.2.2.2)) := by
    funext e
    obtain ⟨k, c, p, hd⟩ := e
    cases c with
    | nil => simp [order_tree_nil, NavTree.isNil]
    | cons k0 c0 p0 h0 r0 => rfl
  rw [hfun]

/-- C10 witness at a concrete plain-mode configuration and tree. -/
theorem C10_witness :
    (order_tree cfgPlain treeC8).toEntryList.Perm
      (treeC8.toEntryList.map
        (fun e => (e.1, order_tree cfgPlain e.2.1, e.2.2.1, e.2.2.2))) :=
  C10_order_tree_perm cfgPlain treeC8 (by decide)

end OW
